import Mathlib

/-!
Shallow embedding of the extraction-and-normalization pipeline of
`src/pages/api/summarize.ts` (PDF-Quizer).  JavaScript strings are modelled
as Lean `String` / `List Char`; the JavaScript string operations used by the
source (`toLowerCase`, `toUpperCase`, `trim`, `includes`, relational
comparison, `parseInt`, `replace(/[^\w\s]/g,'')`) are modelled below for the
ASCII range (the only range exercised by the answer-matching logic).
Machine numbers are modelled as `Nat`/`Int`; fallible steps as `Option`.
-/

namespace PDFQuizer

/-- JavaScript whitespace class (the members relevant to ASCII input plus
the no-break space), used by `trim` and the regex class `\s`. -/
def jsWhitespace (c : Char) : Bool :=
  c = ' ' || c = '\t' || c = '\n' || c = '\r' || c = '\x0b' || c = '\x0c' || c = ' '

/-- JS `String.prototype.trim`: drop leading and trailing whitespace. -/
def jsTrim (s : String) : String :=
  ⟨((s.data.dropWhile jsWhitespace).reverse.dropWhile jsWhitespace).reverse⟩

/-- JS `String.prototype.toLowerCase`, restricted to the ASCII mapping. -/
def jsToLower (s : String) : String := ⟨s.data.map Char.toLower⟩

/-- JS `String.prototype.toUpperCase`, restricted to the ASCII mapping. -/
def jsToUpper (s : String) : String := ⟨s.data.map Char.toUpper⟩

/-- Does `l` start with `pre`? (helper for substring containment). -/
def lexStarts : List Char → List Char → Bool
  | [], _ => true
  | _ :: _, [] => false
  | a :: as, b :: bs => a = b && lexStarts as bs

/-- Is `sub` a contiguous substring of `l`? -/
def lexSub (sub l : List Char) : Bool :=
  match l with
  | [] => sub.isEmpty
  | _ :: tl => lexStarts sub l || lexSub sub tl

/-- JS `String.prototype.includes`: `jsIncludes s sub` means `sub` occurs in `s`. -/
def jsIncludes (s sub : String) : Bool := lexSub sub.data s.data

/-- Lexicographic order on code points: JavaScript `<=` on strings
(code-unit order, which agrees with code-point order on the ASCII range). -/
def lexLe : List Char → List Char → Bool
  | [], _ => true
  | _ :: _, [] => false
  | a :: as, b :: bs => if a < b then true else if a = b then lexLe as bs else false

/-- JS comparison `s <= t` on strings. -/
def jsLe (s t : String) : Bool := lexLe s.data t.data

/-- Regex class `\w`: ASCII letters, digits and underscore. -/
def jsWordChar (c : Char) : Bool := c.isAlpha || c.isDigit || c = '_'

/-- The normalization `x.toLowerCase().trim().replace(/[^\w\s]/g, '')` — the normalization
applied to both option text and answer text before matching. -/
def cleanStr (s : String) : String :=
  ⟨(jsTrim (jsToLower s)).data.filter (fun c => jsWordChar c || jsWhitespace c)⟩

/-- Leading decimal-digit run, as consumed by `parseInt` after the sign. -/
def digitsVal (cs : List Char) : Option Nat :=
  let ds := cs.takeWhile Char.isDigit
  if ds.isEmpty then none
  else some (ds.foldl (fun acc c => acc * 10 + (c.toNat - 48)) 0)

/-- JS function `parseInt` in base 10 (`none` models `NaN`). -/
def jsParseInt (s : String) : Option Int :=
  match s.data.dropWhile jsWhitespace with
  | '-' :: rest => (digitsVal rest).map (fun n => -(n : Int))
  | '+' :: rest => (digitsVal rest).map (fun n => (n : Int))
  | t => (digitsVal t).map (fun n => (n : Int))

/-- JS `s.charCodeAt(0)` (only evaluated under guards that force nonemptiness;
the empty case is unreachable there). -/
def strHeadCode (s : String) : Nat :=
  match s.data with
  | [] => 0
  | c :: _ => c.toNat

/-! ### Option shuffler (`shuffleOptions`, summarize.ts lines 26–39) -/

/-- One JavaScript array-destructuring swap
`[a[i], a[j]] = [a[j], a[i]]` (identity when an index is out of range,
which the Fisher–Yates loop never produces). -/
def listSwap {α : Type} (l : List α) (i j : Nat) : List α :=
  match l[i]?, l[j]? with
  | some a, some b => (l.set i b).set j a
  | _, _ => l

/-- The Fisher–Yates loop `for (i = len-1; i > 0; i--) swap(i, jChoice i)`,
parameterized by the sequence of random draws `jChoice`
(`jChoice i` models `Math.floor(Math.random() * (i + 1))`). -/
def fyFrom {α : Type} (jChoice : Nat → Nat) : Nat → List α → List α
  | 0, l => l
  | i + 1, l => fyFrom jChoice i (listSwap l (i + 1) (jChoice (i + 1)))

/-- The `(option, wasCorrect)` pairing built by
`options.map((opt, idx) => ({option: opt, wasCorrect: idx === correctIndex}))`. -/
def pairsOf (options : List String) (correctIndex : Nat) : List (String × Bool) :=
  options.enum.map (fun p => (p.2, p.1 == correctIndex))

/-- The pairing after the Fisher–Yates loop has run. -/
def shuffledPairsOf (options : List String) (correctIndex : Nat)
    (jChoice : Nat → Nat) : List (String × Bool) :=
  fyFrom jChoice ((pairsOf options correctIndex).length - 1) (pairsOf options correctIndex)

/-- Model of `shuffleOptions(options, correctIndex)`: returns the permuted option
texts and `findIndex(item => item.wasCorrect)` (`none` models `-1`). -/
def shuffleOptions (options : List String) (correctIndex : Nat)
    (jChoice : Nat → Nat) : List String × Option Nat :=
  let shuffled := shuffledPairsOf options correctIndex jChoice
  (shuffled.map Prod.fst, shuffled.findIdx? (fun item => item.2))

/-! ### Segmenter (handler lines 369–377, processLargeDocument lines 105–112) -/

/-- Model of `const chunkSize = 25000` (line 106). -/
def chunkSize : Nat := 25000

/-- Model of `Math.floor(text.length / 400)` (line 369). -/
def estimatedQuestions (len : Nat) : Nat := len / 400

/-- The chunking decision `text.length > 40000 || estimatedQuestions > 25`
(line 374). -/
def chunkTrigger (len : Nat) : Bool :=
  decide (len > 40000) || decide (estimatedQuestions len > 25)

/-- The chunking loop
`for (i = 0; i < text.length; i += chunkSize) chunks.push(text.slice(i, i + chunkSize))`
(lines 109–111), expressed as take/drop recursion over the remaining text. -/
def chunkList (cs : List Char) : List (List Char) :=
  if h : cs.isEmpty then [] else cs.take chunkSize :: chunkList (cs.drop chunkSize)
termination_by cs.length
decreasing_by
  have hne : cs ≠ [] := by simpa [List.isEmpty_iff] using h
  have hlen : 0 < cs.length := List.length_pos.mpr hne
  simp only [List.length_drop]
  simp only [chunkSize]
  omega

/-- The segmentation performed by `handler`: chunk when triggered, otherwise
send the whole text as a single request (single segment). -/
def segmentsOf (text : List Char) : List (List Char) :=
  if chunkTrigger text.length then chunkList text else [text]

/-! ### Raw records and answer resolution (processLargeDocument lines 262–333) -/

/-- One parsed record from the extraction response.  `correctAnswerIndex`
is `some i` when the JSON field is a number (`typeof … === 'number'`);
`correctAnswer` is `none` when the field is absent (`undefined`). -/
structure RawQuestion where
  question : String
  options : List String
  correctAnswerIndex : Option Int
  correctAnswer : Option String
  answerMarkedInDocument : Bool
deriving DecidableEq

/-- The terminal output shape.  `correctAnswer` is `none` when
`newCorrectIndex` was `-1` (JavaScript `shuffled[-1]` is `undefined`). -/
structure ProcessedQuestion where
  question : String
  options : List String
  correctAnswer : Option String
  originalIndex : Nat
  verified : Bool
deriving DecidableEq

/-- The option-matching predicate of `q.options.findIndex` (lines 280–286):
normalized equality or two-way containment. -/
def matchesOption (answer opt : String) : Bool :=
  let cleanOpt := cleanStr opt
  let cleanAnswer := cleanStr answer
  cleanOpt == cleanAnswer || jsIncludes cleanOpt cleanAnswer ||
    jsIncludes cleanAnswer cleanOpt

/-- The letter / uppercase-letter / digit chain (lines 288–314), entered when
the text match failed and `correctAnswer.length <= 2`.  Returns the assigned
index if the chain assigned one (in which case the code also sets
`verified = true`). -/
def shortAnswerIndex (answer : String) (numOptions : Nat) : Option Nat :=
  let answerChar := jsTrim (jsToLower answer)
  if jsLe "a" answerChar && jsLe answerChar "z" then
    let letterIndex : Int := (strHeadCode answerChar : Int) - 97
    if 0 ≤ letterIndex ∧ letterIndex < (numOptions : Int) then
      some letterIndex.toNat
    else none
  else if jsLe "A" (jsToUpper answerChar) && jsLe (jsToUpper answerChar) "Z" then
    let letterIndex : Int := (strHeadCode (jsToUpper answerChar) : Int) - 65
    if 0 ≤ letterIndex ∧ letterIndex < (numOptions : Int) then
      some letterIndex.toNat
    else none
  else if jsLe "1" answerChar && jsLe answerChar "4" then
    match jsParseInt answerChar with
    | some m =>
      if 0 ≤ m - 1 ∧ m - 1 < (numOptions : Int) then some (m - 1).toNat else none
    | none => none
  else none

/-- The `else if (q.correctAnswer)` arm (lines 272–314) followed by the
final fallback (lines 317–322): literal text matching over the options, then
the letter/digit chain for short answers, then `(0, false)`. -/
def resolveByText (options : List String) (verified0 : Bool)
    (ans : Option String) : Nat × Bool :=
  match ans with
  | some s =>
    if s == "" then (0, false)
    else
      match options.findIdx? (fun opt => matchesOption s opt) with
      | some k => (k, verified0)
      | none =>
        if s.length ≤ 2 then
          match shortAnswerIndex s options.length with
          | some li => (li, true)
          | none => (0, false)
        else (0, false)
  | none => (0, false)

/-- The per-question answer resolution of `processLargeDocument`
(lines 262–322): explicit in-range index first, then the text fallback.
Returns `(correctIndex, verified)`. -/
def resolveAnswer (q : RawQuestion) : Nat × Bool :=
  let verified0 := q.answerMarkedInDocument
  match q.correctAnswerIndex with
  | some i =>
    if 0 ≤ i ∧ i < (q.options.length : Int) then (i.toNat, verified0)
    else resolveByText q.options verified0 q.correctAnswer
  | none => resolveByText q.options verified0 q.correctAnswer

/-- Build one output question (lines 324–332). -/
def processQuestion (jChoice : Nat → Nat) (idx : Nat) (q : RawQuestion) :
    ProcessedQuestion :=
  let r := resolveAnswer q
  let s := shuffleOptions q.options r.1 jChoice
  { question := q.question
    options := s.1
    correctAnswer := s.2.bind (fun k => s.1[k]?)
    originalIndex := idx
    verified := r.2 }

/-- Model of `allQuestions.map((q, idx) => …)` (line 262); `jf i` is the random draw
sequence used for question `i`'s shuffle. -/
def processAll (jf : Nat → Nat → Nat) (qs : List RawQuestion) :
    List ProcessedQuestion :=
  qs.enum.map (fun p => processQuestion (jf p.1) p.1 p.2)

/-- The accumulation loop of `processLargeDocument` (lines 118–249): a failed
segment (`none`: bad HTTP status, invalid response shape, unparsable payload
or non-array payload) contributes nothing and the loop continues; a
successful segment's records are appended in order. -/
def aggregate (results : List (Option (List RawQuestion))) : List RawQuestion :=
  (results.filterMap id).flatten

structure QuizResponse where
  status : Nat
  error : Option String
  questions : List ProcessedQuestion
deriving DecidableEq

/-- The tail of `processLargeDocument` (lines 251–336): 400 with an error and
no questions when nothing was extracted, otherwise 200 with every processed
question. -/
def processLargeDocument (jf : Nat → Nat → Nat)
    (results : List (Option (List RawQuestion))) : QuizResponse :=
  let allQuestions := aggregate results
  if allQuestions.length == 0 then
    { status := 400, error := some "No questions found in the document",
      questions := [] }
  else
    { status := 200, error := none, questions := processAll jf allQuestions }

/-- JavaScript truthiness of the request's `text` field (`none` models a
missing field / `undefined`). -/
def jsTruthyText : Option String → Bool
  | none => false
  | some s => !(s == "")

/-- Model of `handler` (lines 338–614) for a POST request, parameterized by the
extraction capability `oracle` (segment index and text to outcome) and the
presence of the API key.  The small-document path's upstream-failure
response is modelled as a 500 server error (the code passes the upstream
status through; both are server-error reports with no questions). -/
def handler (hasKey : Bool) (jf : Nat → Nat → Nat)
    (oracle : Nat → List Char → Option (List RawQuestion))
    (text : Option String) : QuizResponse :=
  if !(jsTruthyText text) || (jsTrim (text.getD "")).length == 0 then
    { status := 400, error := some "No text provided", questions := [] }
  else if !hasKey then
    { status := 500, error := some "API key not configured", questions := [] }
  else
    let t := (text.getD "").data
    if chunkTrigger t.length then
      processLargeDocument jf ((chunkList t).enum.map (fun p => oracle p.1 p.2))
    else
      match oracle 0 t with
      | none =>
        { status := 500, error := some "Failed to extract questions",
          questions := [] }
      | some [] =>
        { status := 400, error := some "No questions found in the document",
          questions := [] }
      | some qs => { status := 200, error := none, questions := processAll jf qs }

/-! ### Refinement-comparison variant for the uppercase branch claim -/

/-- Variant of `shortAnswerIndex` with the uppercase-letter branch (lines 298–305)
deleted — the comparison definition for the refinement claim. -/
def shortAnswerIndexNoUpper (answer : String) (numOptions : Nat) : Option Nat :=
  let answerChar := jsTrim (jsToLower answer)
  if jsLe "a" answerChar && jsLe answerChar "z" then
    let letterIndex : Int := (strHeadCode answerChar : Int) - 97
    if 0 ≤ letterIndex ∧ letterIndex < (numOptions : Int) then
      some letterIndex.toNat
    else none
  else if jsLe "1" answerChar && jsLe answerChar "4" then
    match jsParseInt answerChar with
    | some m =>
      if 0 ≤ m - 1 ∧ m - 1 < (numOptions : Int) then some (m - 1).toNat else none
    | none => none
  else none

/-- A concrete record carrying an explicit in-range index (used by witnesses). -/
def sampleQ1 : RawQuestion :=
  { question := "2+2=?", options := ["3", "4", "5", "6"],
    correctAnswerIndex := some 1, correctAnswer := none,
    answerMarkedInDocument := true }

/-- A concrete record carrying both an explicit index and a conflicting
literal answer text (used by witnesses). -/
def sampleQ2 : RawQuestion :=
  { question := "2+2=?", options := ["3", "4", "5", "6"],
    correctAnswerIndex := some 1, correctAnswer := some "5",
    answerMarkedInDocument := true }

/-- A record whose letter indicator `"b"` collides with an option text
containing the letter (used for the C6 counterexample). -/
def sampleQ3 : RawQuestion :=
  { question := "Which fluid?",
    options := ["blood", "water", "milk", "sap"],
    correctAnswerIndex := none, correctAnswer := some "b",
    answerMarkedInDocument := false }

/-- A record whose letter indicator `"b"` matches no option text (used for
the amended C6 witness). -/
def sampleQ4 : RawQuestion :=
  { question := "Which color?",
    options := ["red", "green", "yellow", "purple"],
    correctAnswerIndex := none, correctAnswer := some "b",
    answerMarkedInDocument := false }

/-- Like `sampleQ4` but with the uppercase letter indicator `"B"`. -/
def sampleQ4B : RawQuestion :=
  { question := "Which color?",
    options := ["red", "green", "yellow", "purple"],
    correctAnswerIndex := none, correctAnswer := some "B",
    answerMarkedInDocument := false }

/-- A record whose indicator `"zz"` matches no option and no letter or digit
pattern (used for the C7 witness). -/
def sampleQ5 : RawQuestion :=
  { question := "Pick one", options := ["foo", "bar"],
    correctAnswerIndex := none, correctAnswer := some "zz",
    answerMarkedInDocument := true }

/-- Variant of `resolveByText` built on the branch-deleted chain. -/
def resolveByTextNoUpper (options : List String) (verified0 : Bool)
    (ans : Option String) : Nat × Bool :=
  match ans with
  | some s =>
    if s == "" then (0, false)
    else
      match options.findIdx? (fun opt => matchesOption s opt) with
      | some k => (k, verified0)
      | none =>
        if s.length ≤ 2 then
          match shortAnswerIndexNoUpper s options.length with
          | some li => (li, true)
          | none => (0, false)
        else (0, false)
  | none => (0, false)

/-- Variant of `resolveAnswer` built on the branch-deleted chain. -/
def resolveAnswerNoUpper (q : RawQuestion) : Nat × Bool :=
  let verified0 := q.answerMarkedInDocument
  match q.correctAnswerIndex with
  | some i =>
    if 0 ≤ i ∧ i < (q.options.length : Int) then (i.toNat, verified0)
    else resolveByTextNoUpper q.options verified0 q.correctAnswer
  | none => resolveByTextNoUpper q.options verified0 q.correctAnswer

/-! ### Helper lemmas -/

theorem count_set_balance {α : Type} [DecidableEq α] (l : List α) :
    ∀ (i : Nat) (b x : α) (h : i < l.length),
      (l.set i b).count x + (if l[i] = x then 1 else 0)
        = l.count x + (if b = x then 1 else 0) := by
  induction l with
  | nil => intro i b x h; simp at h
  | cons hd tl ih =>
    intro i b x h
    cases i with
    | zero =>
      simp only [List.set_cons_zero, List.getElem_cons_zero, List.count_cons,
        beq_iff_eq]
      generalize (if b = x then (1 : Nat) else 0) = A
      generalize (if hd = x then (1 : Nat) else 0) = B
      omega
    | succ n =>
      simp only [List.set_cons_succ, List.getElem_cons_succ, List.count_cons,
        beq_iff_eq]
      have hn : n < tl.length := by simpa using Nat.lt_of_succ_lt_succ h
      have ihn := ih n b x hn
      generalize hA : (if b = x then (1 : Nat) else 0) = A at ihn ⊢
      generalize hB : (if hd = x then (1 : Nat) else 0) = B
      generalize hC : (if tl[n] = x then (1 : Nat) else 0) = C at ihn ⊢
      omega

theorem listSwap_perm {α : Type} [DecidableEq α] (l : List α) (i j : Nat) :
    List.Perm (listSwap l i j) l := by
  unfold listSwap
  cases hi : l[i]? with
  | none => exact List.Perm.refl l
  | some a =>
    cases hj : l[j]? with
    | none => exact List.Perm.refl l
    | some b =>
      show List.Perm ((l.set i b).set j a) l
      have hil : i < l.length := by
        by_contra hc
        simp [List.getElem?_eq_none (Nat.le_of_not_lt hc)] at hi
      have hjl : j < l.length := by
        by_contra hc
        simp [List.getElem?_eq_none (Nat.le_of_not_lt hc)] at hj
      apply List.perm_iff_count.mpr
      intro x
      have e1 := count_set_balance l i b x hil
      have hjl2 : j < (l.set i b).length := by simpa using hjl
      have e2 := count_set_balance (l.set i b) j a x hjl2
      have hval : (l.set i b)[j] = b := by
        rcases Decidable.em (i = j) with hij | hij
        · subst hij; simp [List.getElem_set_self]
        · rw [List.getElem_set_ne hij]
          have := List.getElem?_eq_getElem hjl
          rw [hj] at this
          exact (Option.some.injEq _ _).mp this.symm
      rw [hval] at e2
      have hli : l[i] = a := by
        have := List.getElem?_eq_getElem hil
        rw [hi] at this
        exact ((Option.some.injEq _ _).mp this.symm)
      rw [hli] at e1
      generalize hA : (if a = x then (1 : Nat) else 0) = A at e1 e2
      generalize hB : (if b = x then (1 : Nat) else 0) = B at e1 e2
      omega

theorem fyFrom_perm {α : Type} [DecidableEq α] (jChoice : Nat → Nat) :
    ∀ (i : Nat) (l : List α), List.Perm (fyFrom jChoice i l) l := by
  intro i
  induction i with
  | zero => intro l; exact List.Perm.refl l
  | succ n ih =>
    intro l
    exact (ih (listSwap l (n + 1) (jChoice (n + 1)))).trans
      (listSwap_perm l (n + 1) (jChoice (n + 1)))

theorem shuffledPairs_perm (options : List String) (correctIndex : Nat)
    (jChoice : Nat → Nat) :
    List.Perm (shuffledPairsOf options correctIndex jChoice)
      (pairsOf options correctIndex) :=
  fyFrom_perm jChoice _ _

theorem pairsOf_map_fst (options : List String) (ci : Nat) :
    (pairsOf options ci).map Prod.fst = options := by
  show List.map Prod.fst
      (List.map (fun p => (p.2, p.1 == ci)) (List.enumFrom 0 options)) = options
  rw [List.map_map]
  exact List.enumFrom_map_snd 0 options

theorem countP_marked_enumFrom (ci : Nat) :
    ∀ (l : List String) (k : Nat),
      List.countP (fun p => p.1 == ci) (List.enumFrom k l)
        = if k ≤ ci ∧ ci < k + l.length then 1 else 0 := by
  intro l
  induction l with
  | nil =>
    intro k
    simp only [List.enumFrom_nil, List.countP_nil, List.length_nil, Nat.add_zero]
    rw [if_neg (by omega)]
  | cons hd tl ih =>
    intro k
    rw [List.enumFrom_cons, List.countP_cons, ih (k + 1)]
    simp only [beq_iff_eq, List.length_cons]
    by_cases h1 : k = ci
    · subst h1
      rw [if_neg (by omega), if_pos rfl, if_pos (by omega)]
    · rw [if_neg h1]
      by_cases h2 : k + 1 ≤ ci ∧ ci < k + 1 + tl.length
      · rw [if_pos h2, if_pos (by omega)]
      · rw [if_neg h2, if_neg (by omega)]

theorem countP_marked_pairsOf (options : List String) (ci : Nat) :
    (pairsOf options ci).countP (fun p => p.2)
      = if ci < options.length then 1 else 0 := by
  show List.countP (fun p => p.2)
      (List.map (fun p => (p.2, p.1 == ci)) (List.enumFrom 0 options)) = _
  rw [List.countP_map]
  show List.countP (fun p => p.1 == ci) (List.enumFrom 0 options) = _
  rw [countP_marked_enumFrom ci options 0]
  simp

theorem marked_pair_eq {options : List String} {ci : Nat} {x : String × Bool}
    (hx : x ∈ pairsOf options ci) (hm : x.2 = true) :
    options[ci]? = some x.1 := by
  unfold pairsOf at hx
  rcases List.mem_map.mp hx with ⟨⟨i, a⟩, hp, hfx⟩
  subst hfx
  simp only at hm
  have hi : i = ci := by simpa using hm
  subst hi
  have h3 := List.mem_enumFrom (show (i, a) ∈ options.enumFrom 0 from hp)
  rcases h3 with ⟨-, hlt, hval⟩
  have hci : i < options.length := by simpa using hlt
  rw [List.getElem?_eq_getElem hci]
  simpa using hval.symm

theorem shuffledPairs_countP (options : List String) (ci : Nat)
    (jChoice : Nat → Nat) (h : ci < options.length) :
    (shuffledPairsOf options ci jChoice).countP (fun p => p.2) = 1 := by
  rw [(shuffledPairs_perm options ci jChoice).countP_eq]
  rw [countP_marked_pairsOf, if_pos h]

theorem shuffleOptions_spec (options : List String) (ci : Nat)
    (jChoice : Nat → Nat) (h : ci < options.length) :
    ∃ k, (shuffleOptions options ci jChoice).2 = some k ∧
      (shuffleOptions options ci jChoice).1[k]? = options[ci]? := by
  cases hf : (shuffledPairsOf options ci jChoice).findIdx? (fun item => item.2) with
  | none =>
    exfalso
    rw [List.findIdx?_eq_none_iff] at hf
    have hz : (shuffledPairsOf options ci jChoice).countP (fun p => p.2) = 0 :=
      List.countP_eq_zero.mpr (fun a ha => by simpa using hf a ha)
    have hc := shuffledPairs_countP options ci jChoice h
    omega
  | some k =>
    refine ⟨k, hf, ?_⟩
    rcases List.findIdx?_eq_some_iff_getElem.mp hf with ⟨hk, hmk, -⟩
    have hmem : (shuffledPairsOf options ci jChoice)[k] ∈
        shuffledPairsOf options ci jChoice := List.getElem_mem hk
    have hmem2 : (shuffledPairsOf options ci jChoice)[k] ∈ pairsOf options ci :=
      (shuffledPairs_perm options ci jChoice).mem_iff.mp hmem
    have hval := marked_pair_eq hmem2 hmk
    show (List.map Prod.fst (shuffledPairsOf options ci jChoice))[k]? = options[ci]?
    rw [List.getElem?_map, List.getElem?_eq_getElem hk, hval]
    rfl

/-- C1: for every option list and every `correctIndex` in range, the
shuffled question's tracked answer is the pre-shuffle
`options[correctIndex]`: `shuffleOptions` returns `(shuffled, newCorrectIndex)`
with `shuffled[newCorrectIndex] = options[correctIndex]` for every sequence
of random draws, and the processing step therefore sets `correctAnswer` to
the pre-shuffle correct option's text. -/
theorem shuffle_preserves_correct_answer (options : List String) (ci : Nat)
    (jChoice : Nat → Nat) (q : RawQuestion) (idx : Nat)
    (h : ci < options.length)
    (hq : (resolveAnswer q).1 < q.options.length) :
    (∃ k, (shuffleOptions options ci jChoice).2 = some k ∧
      (shuffleOptions options ci jChoice).1[k]? = options[ci]?) ∧
    (processQuestion jChoice idx q).correctAnswer
      = q.options[(resolveAnswer q).1]? := by
  refine ⟨shuffleOptions_spec options ci jChoice h, ?_⟩
  rcases shuffleOptions_spec q.options (resolveAnswer q).1 jChoice hq with
    ⟨k, hk1, hk2⟩
  show (shuffleOptions q.options (resolveAnswer q).1 jChoice).2.bind
      (fun k => (shuffleOptions q.options (resolveAnswer q).1 jChoice).1[k]?)
      = q.options[(resolveAnswer q).1]?
  rw [hk1, Option.some_bind, hk2]

/-- Witness for C1 at a concrete input: four options, correct index 1,
an arbitrary draw sequence. -/
theorem shuffle_preserves_correct_answer_witness :
    (∃ k, (shuffleOptions ["3", "4", "5", "6"] 1 (fun _ => 0)).2 = some k ∧
      (shuffleOptions ["3", "4", "5", "6"] 1 (fun _ => 0)).1[k]?
        = (["3", "4", "5", "6"] : List String)[1]?) ∧
    (processQuestion (fun _ => 0) 0 sampleQ1).correctAnswer
      = sampleQ1.options[(resolveAnswer sampleQ1).1]? :=
  shuffle_preserves_correct_answer ["3", "4", "5", "6"] 1 (fun _ => 0)
    sampleQ1 0 (by decide) (by decide)

theorem shuffleOptions_perm (options : List String) (ci : Nat)
    (jChoice : Nat → Nat) :
    List.Perm (shuffleOptions options ci jChoice).1 options := by
  have h1 := (shuffledPairs_perm options ci jChoice).map Prod.fst
  rw [pairsOf_map_fst] at h1
  exact h1

theorem shuffleOptions_noop (options : List String) (ci : Nat)
    (jChoice : Nat → Nat) (h : options.length = 1) :
    (shuffleOptions options ci jChoice).1 = options := by
  have hp : (pairsOf options ci).length = 1 := by
    unfold pairsOf
    rw [List.length_map]
    show (options.enumFrom 0).length = 1
    rw [List.enumFrom_length, h]
  show (shuffledPairsOf options ci jChoice).map Prod.fst = options
  unfold shuffledPairsOf
  rw [hp]
  exact pairsOf_map_fst options ci

/-- C2 counterexample: with the in-range correct index 0 and the duplicate
option texts `["x", "x"]`, the shuffled list is `["x", "x"]`, so two
resulting options equal the original correct option's text `"x"` and the
claim's "exactly one resulting option equals the original correct option's
text" is false at this input. -/
theorem shuffle_unique_text_cex :
    0 < (["x", "x"] : List String).length ∧
    (shuffleOptions ["x", "x"] 0 (fun _ => 0)).1 = ["x", "x"] ∧
    (shuffleOptions ["x", "x"] 0 (fun _ => 0)).1.count "x" = 2 ∧
    ¬((shuffleOptions ["x", "x"] 0 (fun _ => 0)).1.count "x" = 1) := by
  decide

/-- C2 (amended): for every option list of length at least 1 and every
`correctIndex` in range, the multiset of shuffled option strings equals the
input multiset (the shuffled list is a permutation of the input, so every
text occurs exactly as often as in the input), exactly one element is marked
correct before and after the permutation, a single-option input is a no-op,
and — when the option texts are pairwise distinct — exactly one resulting
option equals the original correct option's text. -/
theorem shuffle_multiset_marked (options : List String) (ci : Nat)
    (jChoice : Nat → Nat) (h : ci < options.length) :
    ((shuffleOptions options ci jChoice).1 : Multiset String)
      = (options : Multiset String) ∧
    List.Perm (shuffleOptions options ci jChoice).1 options ∧
    (∀ t : String,
      (shuffleOptions options ci jChoice).1.count t = options.count t) ∧
    (pairsOf options ci).countP (fun p => p.2) = 1 ∧
    (shuffledPairsOf options ci jChoice).countP (fun p => p.2) = 1 ∧
    (options.length = 1 → (shuffleOptions options ci jChoice).1 = options) ∧
    (options.Nodup →
      (shuffleOptions options ci jChoice).1.count (options.get ⟨ci, h⟩) = 1) := by
  refine ⟨Multiset.coe_eq_coe.mpr (shuffleOptions_perm options ci jChoice),
    shuffleOptions_perm options ci jChoice,
    (shuffleOptions_perm options ci jChoice).count_eq, ?_,
    shuffledPairs_countP options ci jChoice h,
    shuffleOptions_noop options ci jChoice, ?_⟩
  · rw [countP_marked_pairsOf, if_pos h]
  · intro hnd
    rw [(shuffleOptions_perm options ci jChoice).count_eq]
    exact List.count_eq_one_of_mem hnd (List.get_mem options ci h)

/-- Witness for the amended C2 at a concrete input. -/
theorem shuffle_multiset_marked_witness :
    ((shuffleOptions ["a", "b", "c"] 2 (fun _ => 1)).1 : Multiset String)
      = (["a", "b", "c"] : Multiset String) ∧
    List.Perm (shuffleOptions ["a", "b", "c"] 2 (fun _ => 1)).1 ["a", "b", "c"] ∧
    (∀ t : String, (shuffleOptions ["a", "b", "c"] 2 (fun _ => 1)).1.count t
      = (["a", "b", "c"] : List String).count t) ∧
    (pairsOf ["a", "b", "c"] 2).countP (fun p => p.2) = 1 ∧
    (shuffledPairsOf ["a", "b", "c"] 2 (fun _ => 1)).countP (fun p => p.2) = 1 ∧
    ((["a", "b", "c"] : List String).length = 1 →
      (shuffleOptions ["a", "b", "c"] 2 (fun _ => 1)).1 = ["a", "b", "c"]) ∧
    ((["a", "b", "c"] : List String).Nodup →
      (shuffleOptions ["a", "b", "c"] 2 (fun _ => 1)).1.count
        ((["a", "b", "c"] : List String).get ⟨2, by decide⟩) = 1) :=
  shuffle_multiset_marked ["a", "b", "c"] 2 (fun _ => 1) (by decide)

/-! ### Segmentation lemmas -/

theorem chunkList_nil : chunkList [] = [] := by
  unfold chunkList
  rfl

theorem chunkList_step (cs : List Char) (h : cs ≠ []) :
    chunkList cs = cs.take chunkSize :: chunkList (cs.drop chunkSize) := by
  rw [chunkList.eq_def]
  rw [dif_neg (by simpa [List.isEmpty_iff] using h)]

theorem chunkList_eq_nil_iff (cs : List Char) : chunkList cs = [] ↔ cs = [] := by
  constructor
  · intro h
    by_contra hne
    rw [chunkList_step cs hne] at h
    exact absurd h (List.cons_ne_nil _ _)
  · intro h
    subst h
    exact chunkList_nil

theorem chunkList_flatten_aux :
    ∀ (n : Nat) (cs : List Char), cs.length ≤ n → (chunkList cs).flatten = cs := by
  intro n
  induction n with
  | zero =>
    intro cs h
    have : cs = [] := List.length_eq_zero.mp (Nat.le_zero.mp h)
    subst this
    rw [chunkList_nil]
    rfl
  | succ n ih =>
    intro cs h
    by_cases he : cs = []
    · subst he
      rw [chunkList_nil]
      rfl
    · have hpos : 0 < cs.length := List.length_pos.mpr he
      rw [chunkList_step cs he, List.flatten_cons,
        ih (cs.drop chunkSize) (by simp only [List.length_drop, chunkSize]; omega)]
      exact List.take_append_drop chunkSize cs

theorem chunkList_flatten (cs : List Char) : (chunkList cs).flatten = cs :=
  chunkList_flatten_aux cs.length cs Nat.le.refl

theorem chunkList_length_aux :
    ∀ (n : Nat) (cs : List Char), cs.length ≤ n →
      (chunkList cs).length = (cs.length + chunkSize - 1) / chunkSize := by
  intro n
  induction n with
  | zero =>
    intro cs h
    have : cs = [] := List.length_eq_zero.mp (Nat.le_zero.mp h)
    subst this
    rw [chunkList_nil]
    show 0 = (0 + chunkSize - 1) / chunkSize
    rw [Nat.div_eq_of_lt (by simp [chunkSize])]
  | succ n ih =>
    intro cs h
    by_cases he : cs = []
    · subst he
      rw [chunkList_nil]
      show 0 = (0 + chunkSize - 1) / chunkSize
      rw [Nat.div_eq_of_lt (by simp [chunkSize])]
    · have hpos : 0 < cs.length := List.length_pos.mpr he
      rw [chunkList_step cs he, List.length_cons,
        ih (cs.drop chunkSize) (by simp only [List.length_drop, chunkSize]; omega),
        List.length_drop]
      by_cases hle : cs.length ≤ chunkSize
      · have h1 : cs.length - chunkSize = 0 := by omega
        rw [h1]
        rw [Nat.div_eq_of_lt (by simp [chunkSize])]
        have h3 : (cs.length + chunkSize - 1) / chunkSize = 1 := by
          apply Nat.div_eq_of_lt_le
          · simp only [chunkSize] at hpos hle ⊢
            omega
          · simp only [chunkSize] at hpos hle ⊢
            omega
        omega
      · have h4 : cs.length + chunkSize - 1
            = (cs.length - chunkSize + chunkSize - 1) + chunkSize := by
          simp only [chunkSize] at hle ⊢
          omega
        rw [h4, Nat.add_div_right _ (by simp [chunkSize] : 0 < chunkSize)]

theorem chunkList_length (cs : List Char) :
    (chunkList cs).length = (cs.length + chunkSize - 1) / chunkSize :=
  chunkList_length_aux cs.length cs Nat.le.refl

theorem chunkList_sizes_all :
    ∀ (n : Nat) (cs : List Char), cs.length ≤ n →
      ∀ seg ∈ chunkList cs, 0 < seg.length ∧ seg.length ≤ chunkSize := by
  intro n
  induction n with
  | zero =>
    intro cs h seg hseg
    have : cs = [] := List.length_eq_zero.mp (Nat.le_zero.mp h)
    subst this
    rw [chunkList_nil] at hseg
    cases hseg
  | succ n ih =>
    intro cs h seg hseg
    by_cases he : cs = []
    · subst he
      rw [chunkList_nil] at hseg
      cases hseg
    · have hpos : 0 < cs.length := List.length_pos.mpr he
      rw [chunkList_step cs he] at hseg
      cases hseg with
      | head =>
        constructor
        · rw [List.length_take]
          simp only [chunkSize]
          omega
        · exact List.length_take_le chunkSize cs
      | tail _ hmem =>
        exact ih (cs.drop chunkSize)
          (by simp only [List.length_drop, chunkSize]; omega) seg hmem

theorem chunkList_sizes_init :
    ∀ (n : Nat) (cs : List Char), cs.length ≤ n →
      ∀ i (hi : i < (chunkList cs).length), i + 1 < (chunkList cs).length →
        ((chunkList cs).get ⟨i, hi⟩).length = chunkSize := by
  intro n
  induction n with
  | zero =>
    intro cs h i hi _
    have : cs = [] := List.length_eq_zero.mp (Nat.le_zero.mp h)
    subst this
    rw [chunkList_nil] at hi
    cases hi
  | succ n ih =>
    intro cs h i hi hnext
    by_cases he : cs = []
    · subst he
      rw [chunkList_nil] at hi
      cases hi
    · have hpos : 0 < cs.length := List.length_pos.mpr he
      have hstep := chunkList_step cs he
      cases i with
      | zero =>
        have hrest : chunkList (cs.drop chunkSize) ≠ [] := by
          intro hz
          rw [hstep, hz] at hnext
          simp at hnext
        have hdrop : cs.drop chunkSize ≠ [] :=
          fun hz => hrest ((chunkList_eq_nil_iff _).mpr hz)
        have hlong : chunkSize < cs.length := by
          have := List.length_pos.mpr hdrop
          rw [List.length_drop] at this
          omega
        simp only [List.get_eq_getElem]
        rw [List.getElem_of_eq hstep, List.getElem_cons_zero, List.length_take]
        omega
      | succ j =>
        have hj : j < (chunkList (cs.drop chunkSize)).length := by
          have := hi
          rw [hstep, List.length_cons] at this
          omega
        have hjnext : j + 1 < (chunkList (cs.drop chunkSize)).length := by
          have := hnext
          rw [hstep, List.length_cons] at this
          omega
        have hlen : (cs.drop chunkSize).length ≤ n := by
          simp only [List.length_drop, chunkSize]
          omega
        have := ih (cs.drop chunkSize) hlen j hj hjnext
        simp only [List.get_eq_getElem] at this ⊢
        rw [List.getElem_of_eq hstep, List.getElem_cons_succ]
        exact this

theorem chunkList_50000 :
    chunkList (List.replicate 50000 'a')
      = [List.replicate 25000 'a', List.replicate 25000 'a'] := by
  have h1 : (List.replicate 50000 'a') ≠ [] :=
    List.ne_nil_of_length_pos (by rw [List.length_replicate]; omega)
  rw [chunkList_step _ h1, List.take_replicate, List.drop_replicate]
  have e1 : min chunkSize 50000 = 25000 := by simp only [chunkSize]; omega
  have e2 : 50000 - chunkSize = 25000 := by simp only [chunkSize]
  rw [e1, e2]
  have h2 : (List.replicate 25000 'a') ≠ [] :=
    List.ne_nil_of_length_pos (by rw [List.length_replicate]; omega)
  rw [chunkList_step _ h2, List.take_replicate, List.drop_replicate]
  have e3 : min chunkSize 25000 = 25000 := by simp only [chunkSize]; omega
  have e4 : 25000 - chunkSize = 0 := by simp only [chunkSize]
  rw [e3, e4, List.replicate_zero, chunkList_nil]

/-- C3 counterexample: a 50000-character document triggers segmentation
and is split into two chunks of exactly 25000 characters each, so the final
segment is not shorter than the chunk threshold. -/
theorem segmentation_final_shorter_cex :
    chunkTrigger (List.replicate 50000 'a').length = true ∧
    segmentsOf (List.replicate 50000 'a')
      = [List.replicate 25000 'a', List.replicate 25000 'a'] ∧
    ¬((List.replicate 25000 'a').length < chunkSize) := by
  refine ⟨?_, ?_, ?_⟩
  · rw [List.length_replicate]
    decide
  · unfold segmentsOf
    rw [List.length_replicate, if_pos (by decide)]
    exact chunkList_50000
  · rw [List.length_replicate]
    simp only [chunkSize]
    omega

/-- C3 (amended): for every document text, concatenating the segments in
order reproduces the text exactly.  When segmentation is triggered
(length over 40000 or estimated question count over 25) the segment count is
`ceil(len / chunkSize)`, every segment except the final one has exactly
`chunkSize` characters, and every segment is nonempty and at most
`chunkSize` characters (the final one is shorter only when `chunkSize` does
not divide the length); otherwise a single segment spans the whole text. -/
theorem segmentation_correct (text : List Char) :
    (segmentsOf text).flatten = text ∧
    (chunkTrigger text.length = true →
      (segmentsOf text).length = (text.length + chunkSize - 1) / chunkSize ∧
      (∀ i (hi : i < (segmentsOf text).length),
        i + 1 < (segmentsOf text).length →
        ((segmentsOf text).get ⟨i, hi⟩).length = chunkSize) ∧
      (∀ seg ∈ segmentsOf text, 0 < seg.length ∧ seg.length ≤ chunkSize)) ∧
    (chunkTrigger text.length = false → segmentsOf text = [text]) := by
  refine ⟨?_, ?_, ?_⟩
  · unfold segmentsOf
    by_cases ht : chunkTrigger text.length
    · rw [if_pos ht]
      exact chunkList_flatten text
    · rw [if_neg ht]
      simp
  · intro ht
    have hseg : segmentsOf text = chunkList text := by
      unfold segmentsOf
      rw [if_pos ht]
    rw [hseg]
    exact ⟨chunkList_length text,
      chunkList_sizes_init text.length text Nat.le.refl,
      chunkList_sizes_all text.length text Nat.le.refl⟩
  · intro ht
    unfold segmentsOf
    rw [if_neg (by simp [ht])]

/-- Witness for the amended C3 at a concrete triggered input: a
50001-character document yields 3 segments that concatenate back to it. -/
theorem segmentation_correct_witness :
    (segmentsOf (List.replicate 50001 'a')).flatten = List.replicate 50001 'a' ∧
    (segmentsOf (List.replicate 50001 'a')).length = 3 := by
  have h := segmentation_correct (List.replicate 50001 'a')
  refine ⟨h.1, ?_⟩
  have ht : chunkTrigger (List.replicate 50001 'a').length = true := by
    rw [List.length_replicate]
    decide
  rw [(h.2.1 ht).1, List.length_replicate]
  norm_num [chunkSize]

/-! ### Aggregation lemmas -/

theorem processAll_length (jf : Nat → Nat → Nat) (qs : List RawQuestion) :
    (processAll jf qs).length = qs.length := by
  unfold processAll
  rw [List.length_map]
  show (qs.enumFrom 0).length = qs.length
  rw [List.enumFrom_length]

theorem processAll_originalIndex (jf : Nat → Nat → Nat) (qs : List RawQuestion) :
    ∀ i (hi : i < (processAll jf qs).length),
      ((processAll jf qs).get ⟨i, hi⟩).originalIndex = i := by
  intro i hi
  simp only [processAll, List.get_eq_getElem, List.getElem_map]
  rw [List.getElem_enum]
  rfl

/-- C4: a failed segment contributes zero questions and the pipeline
continues (removing the failed entry leaves the aggregated list unchanged),
and the `originalIndex` values of the surviving questions are exactly the
contiguous integers `0..n-1` in concatenation order, independent of which
segments failed. -/
theorem aggregation_failure_skip (jf : Nat → Nat → Nat)
    (pre post : List (Option (List RawQuestion))) :
    aggregate (pre ++ none :: post) = aggregate (pre ++ post) ∧
    (∀ i (hi : i < (processAll jf (aggregate (pre ++ none :: post))).length),
      ((processAll jf (aggregate (pre ++ none :: post))).get
        ⟨i, hi⟩).originalIndex = i) := by
  constructor
  · unfold aggregate
    rw [List.filterMap_append, List.filterMap_append]
    rfl
  · exact processAll_originalIndex jf _

/-- Witness for C4: three segments with the middle one failed. -/
theorem aggregation_failure_skip_witness :
    aggregate [some [sampleQ1], none, some [sampleQ2]]
      = aggregate [some [sampleQ1], some [sampleQ2]] ∧
    (∀ i (hi : i <
        (processAll (fun _ _ => 0)
          (aggregate [some [sampleQ1], none, some [sampleQ2]])).length),
      ((processAll (fun _ _ => 0)
          (aggregate [some [sampleQ1], none, some [sampleQ2]])).get
        ⟨i, hi⟩).originalIndex = i) :=
  aggregation_failure_skip (fun _ _ => 0) [some [sampleQ1]] [some [sampleQ2]]

/-! ### Answer resolution -/

/-- C5: an explicit integer answer index in range wins over every other
indicator form: `correctIndex` is set to it and `verified` to the record's
explicitly-marked flag, even when a conflicting literal answer text is also
present. -/
theorem explicit_index_precedence (q : RawQuestion) (i : Int)
    (h1 : q.correctAnswerIndex = some i) (h2 : 0 ≤ i)
    (h3 : i < (q.options.length : Int)) :
    resolveAnswer q = (i.toNat, q.answerMarkedInDocument) := by
  simp only [resolveAnswer, h1]
  rw [if_pos ⟨h2, h3⟩]

/-- Witness for C5: explicit index 1 beats the conflicting literal text
`"5"` (which names option index 2). -/
theorem explicit_index_precedence_witness :
    sampleQ2.correctAnswer = some "5" ∧
    resolveAnswer sampleQ2 = ((1 : Int).toNat, sampleQ2.answerMarkedInDocument) :=
  ⟨by decide, explicit_index_precedence sampleQ2 1 (by decide) (by decide) (by decide)⟩

theorem char_toNat_le {a b : Char} (h : a ≤ b) : a.toNat ≤ b.toNat := by
  rw [Char.le_def, UInt32.le_def, BitVec.le_def] at h
  exact h

theorem lexLe_single (c d : Char) : lexLe [c] [d] = true ↔ c ≤ d := by
  show (if c < d then true else if c = d then lexLe [] [] else false) = true ↔ c ≤ d
  by_cases h1 : c < d
  · rw [if_pos h1]
    simp [le_of_lt h1]
  · rw [if_neg h1]
    by_cases h2 : c = d
    · subst h2
      rw [if_pos rfl]
      exact ⟨fun _ => le_refl c, fun _ => rfl⟩
    · rw [if_neg h2]
      simp only [Bool.false_eq_true, false_iff]
      intro hle
      exact h1 (lt_of_le_of_ne hle h2)

theorem resolveAnswer_no_index_no_match (q : RawQuestion) (s : String)
    (hidx : q.correctAnswerIndex = none)
    (hans : q.correctAnswer = some s) (hne : s ≠ "")
    (hmatch : q.options.findIdx? (fun opt => matchesOption s opt) = none) :
    resolveAnswer q =
      (if s.length ≤ 2 then
        match shortAnswerIndex s q.options.length with
        | some li => (li, true)
        | none => (0, false)
      else (0, false)) := by
  have hbe : (s == "") = false := beq_eq_false_iff_ne.mpr hne
  simp only [resolveAnswer, resolveByText, hidx, hans, hmatch, hbe,
    Bool.false_eq_true, if_false]

theorem shortAnswerIndex_letter (s : String) (c : Char) (n : Nat)
    (hchar : jsTrim (jsToLower s) = ⟨[c]⟩)
    (hlo : 'a' ≤ c) (hhi : c ≤ 'z')
    (hrange : c.toNat - 97 < n) :
    shortAnswerIndex s n = some (c.toNat - 97) := by
  have g1 : jsLe "a" ⟨[c]⟩ = true := by
    show lexLe ['a'] [c] = true
    exact (lexLe_single 'a' c).mpr hlo
  have g2 : jsLe ⟨[c]⟩ "z" = true := by
    show lexLe [c] ['z'] = true
    exact (lexLe_single c 'z').mpr hhi
  have h97 : (97 : Nat) ≤ c.toNat := char_toNat_le hlo
  have hsc : strHeadCode ⟨[c]⟩ = c.toNat := rfl
  rw [← hsc] at h97 hrange
  simp only [shortAnswerIndex, hchar, g1, g2, Bool.true_and, if_true]
  rw [if_pos (by constructor <;> omega)]
  rw [hsc]
  congr 1
  omega

/-- C6 counterexample: the letter indicator `"b"` with an option text
containing the letter resolves through the literal containment match to
index 0 with `verified = false`, not to index 1 with `verified = true`. -/
theorem letter_resolution_cex :
    sampleQ3.correctAnswer = some "b" ∧ sampleQ3.options.length = 4 ∧
    resolveAnswer sampleQ3 = (0, false) ∧
    ¬(resolveAnswer sampleQ3 = (1, true)) := by
  decide

/-- C6 (amended): when the record carries no explicit index and the
literal containment match over the options fails, a letter indicator
(case-insensitively, after lower-casing and trimming) maps to its 0-based
offset from `a` and is accepted with `verified = true` exactly when the
resulting index is within the options' bounds; in particular `"b"`/`"B"`
with 4 non-colliding options resolves to index 1 with `verified = true`. -/
theorem letter_resolution (q : RawQuestion) (s : String) (c : Char)
    (hidx : q.correctAnswerIndex = none)
    (hans : q.correctAnswer = some s)
    (hne : s ≠ "")
    (hlen : s.length ≤ 2)
    (hmatch : q.options.findIdx? (fun opt => matchesOption s opt) = none)
    (hchar : jsTrim (jsToLower s) = ⟨[c]⟩)
    (hlo : 'a' ≤ c) (hhi : c ≤ 'z')
    (hrange : c.toNat - 97 < q.options.length) :
    resolveAnswer q = (c.toNat - 97, true) := by
  rw [resolveAnswer_no_index_no_match q s hidx hans hne hmatch, if_pos hlen,
    shortAnswerIndex_letter s c q.options.length hchar hlo hhi hrange]

/-- Witness for the amended C6: `"b"` and `"B"` with 4 options whose texts
do not contain the letter both resolve to index 1 with `verified = true`. -/
theorem letter_resolution_witness :
    resolveAnswer sampleQ4 = (1, true) ∧ resolveAnswer sampleQ4B = (1, true) :=
  ⟨letter_resolution sampleQ4 "b" 'b' rfl rfl (by decide) (by decide)
      (by decide) (by decide) (by decide) (by decide) (by decide),
    letter_resolution sampleQ4B "B" 'b' rfl rfl (by decide) (by decide)
      (by decide) (by decide) (by decide) (by decide) (by decide)⟩

/-- C7: a record with no usable explicit index whose indicator matches
no option (by normalized equality or containment) and resolves through no
letter or digit pattern falls back to `correctIndex = 0` with
`verified = false`, and the question is still included in the pipeline's
output (the processing map preserves length; the resolver is total, so no
input raises an exception). -/
theorem fallback_resolution (q : RawQuestion) (s : String)
    (hidx : q.correctAnswerIndex = none)
    (hans : q.correctAnswer = some s)
    (hne : s ≠ "")
    (hmatch : q.options.findIdx? (fun opt => matchesOption s opt) = none)
    (hshort : s.length ≤ 2 → shortAnswerIndex s q.options.length = none) :
    resolveAnswer q = (0, false) ∧
    (∀ (jf : Nat → Nat → Nat) (qs : List RawQuestion),
      (processAll jf qs).length = qs.length) := by
  constructor
  · rw [resolveAnswer_no_index_no_match q s hidx hans hne hmatch]
    by_cases hl : s.length ≤ 2
    · rw [if_pos hl, hshort hl]
    · rw [if_neg hl]
  · intro jf qs
    exact processAll_length jf qs

/-- Witness for C7: the unmatched indicator `"zz"` over two options. -/
theorem fallback_resolution_witness :
    resolveAnswer sampleQ5 = (0, false) ∧
    (processAll (fun _ _ => 0) [sampleQ5]).length = 1 := by
  have h := fallback_resolution sampleQ5 "zz" rfl rfl (by decide) (by decide)
    (fun _ => by decide)
  exact ⟨h.1, h.2 (fun _ _ => 0) [sampleQ5]⟩

/-! ### Pipeline-level reporting -/

theorem aggregate_eq_nil (results : List (Option (List RawQuestion)))
    (h : ∀ r ∈ results, r = none ∨ r = some []) : aggregate results = [] := by
  induction results with
  | nil => rfl
  | cons hd tl ih =>
    have hhd := h hd (List.mem_cons_self hd tl)
    have htl := ih (fun r hr => h r (List.mem_cons_of_mem hd hr))
    rcases hhd with h1 | h1 <;> subst h1
    · show aggregate tl = []
      exact htl
    · show ([] ++ (List.filterMap id tl).flatten) = []
      rw [List.nil_append]
      exact htl

theorem handler_small_path (jf : Nat → Nat → Nat)
    (oracle : Nat → List Char → Option (List RawQuestion)) (s : String)
    (hs : jsTrim s ≠ "") (htrig : chunkTrigger s.data.length = false) :
    handler true jf oracle (some s)
      = match oracle 0 s.data with
        | none =>
          { status := 500, error := some "Failed to extract questions",
            questions := [] }
        | some [] =>
          { status := 400, error := some "No questions found in the document",
            questions := [] }
        | some qs =>
          { status := 200, error := none, questions := processAll jf qs } := by
  have hsne : s ≠ "" := fun hz => hs (by rw [hz]; rfl)
  have ht : jsTruthyText (some s) = true := by simp [jsTruthyText, hsne]
  have hl : (jsTrim s).length ≠ 0 := fun hz =>
    hs (String.ext (List.length_eq_zero.mp hz))
  have hb : ((jsTrim s).length == 0) = false := beq_eq_false_iff_ne.mpr hl
  have hcond : ((!(jsTruthyText (some s))) || ((jsTrim s).length == 0))
      = false := by
    rw [ht, hb]
    rfl
  simp only [handler, Option.getD_some]
  rw [if_neg (by rw [hcond]; simp)]
  rw [if_neg (by simp)]
  rw [if_neg (by rw [htrig]; simp)]

/-- C8 counterexample: a small document (single-request path) whose one
extraction fails contributes zero questions, yet the handler reports a
server-error 500 "Failed to extract questions" response — not the claimed
client-error no-questions-found failure. -/
theorem pipeline_failure_reporting_cex :
    chunkTrigger ("Q" : String).data.length = false ∧
    (handler true (fun _ _ => 0) (fun _ _ => none) (some "Q")).status = 500 ∧
    (handler true (fun _ _ => 0) (fun _ _ => none) (some "Q")).error
      = some "Failed to extract questions" ∧
    (handler true (fun _ _ => 0) (fun _ _ => none) (some "Q")).questions = [] ∧
    ¬((handler true (fun _ _ => 0) (fun _ _ => none) (some "Q")).status
        = 400) ∧
    ¬((handler true (fun _ _ => 0) (fun _ _ => none) (some "Q")).error
        = some "No questions found in the document") := by
  decide

/-- C8 (amended): in the chunked pipeline, when every segment contributes
zero questions the response is the no-questions-found failure (client-error
status 400, error message, empty questions array), and any surviving
question yields 200 with the full list regardless of how many segments
failed; in the single-request path, a successful extraction of zero
questions yields the same no-questions-found 400 failure, while a failed
extraction yields a server-error 500 response (error message, empty
questions array) instead, and a successful nonempty extraction yields 200
with the full list.  The embedding is total, so no exception propagates. -/
theorem pipeline_failure_reporting (jf : Nat → Nat → Nat)
    (results : List (Option (List RawQuestion)))
    (oracle : Nat → List Char → Option (List RawQuestion)) (s : String)
    (hs : jsTrim s ≠ "") (htrig : chunkTrigger s.data.length = false) :
    ((∀ r ∈ results, r = none ∨ r = some []) →
      (processLargeDocument jf results).status = 400 ∧
      (processLargeDocument jf results).error
        = some "No questions found in the document" ∧
      (processLargeDocument jf results).questions = []) ∧
    (aggregate results ≠ [] →
      (processLargeDocument jf results).status = 200 ∧
      (processLargeDocument jf results).error = none ∧
      (processLargeDocument jf results).questions.length
        = (aggregate results).length) ∧
    (oracle 0 s.data = some [] →
      handler true jf oracle (some s)
        = { status := 400, error := some "No questions found in the document",
            questions := [] }) ∧
    (oracle 0 s.data = none →
      handler true jf oracle (some s)
        = { status := 500, error := some "Failed to extract questions",
            questions := [] }) ∧
    (∀ (q : RawQuestion) (qs : List RawQuestion),
      oracle 0 s.data = some (q :: qs) →
      handler true jf oracle (some s)
        = { status := 200, error := none,
            questions := processAll jf (q :: qs) } ∧
      (processAll jf (q :: qs)).length = (q :: qs).length) := by
  refine ⟨?_, ?_, ?_, ?_, ?_⟩
  · intro h
    have hz := aggregate_eq_nil results h
    simp [processLargeDocument, hz]
  · intro hne
    have hlen : (aggregate results).length ≠ 0 := by
      simpa [List.length_eq_zero] using hne
    have hb : ((aggregate results).length == 0) = false :=
      beq_eq_false_iff_ne.mpr hlen
    simp only [processLargeDocument, hb, Bool.false_eq_true, if_false]
    exact ⟨trivial, trivial, processAll_length jf (aggregate results)⟩
  · intro hor
    rw [handler_small_path jf oracle s hs htrig, hor]
  · intro hor
    rw [handler_small_path jf oracle s hs htrig, hor]
  · intro q qs hor
    rw [handler_small_path jf oracle s hs htrig, hor]
    exact ⟨rfl, processAll_length jf (q :: qs)⟩

/-- Witness for the amended C8: in the chunked pipeline all-failed segments
give 400 and a surviving question gives 200 with the full list; in the
single-request path an empty extraction gives the no-questions-found 400 and
a failed extraction gives the 500 server error. -/
theorem pipeline_failure_reporting_witness :
    (processLargeDocument (fun _ _ => 0) [none, some [], none]).status = 400 ∧
    (processLargeDocument (fun _ _ => 0) [none, some [], none]).questions
      = [] ∧
    (processLargeDocument (fun _ _ => 0) [none, some [sampleQ1], none]).status
      = 200 ∧
    (processLargeDocument (fun _ _ => 0)
      [none, some [sampleQ1], none]).questions.length = 1 ∧
    handler true (fun _ _ => 0) (fun _ _ => some []) (some "Q")
      = { status := 400, error := some "No questions found in the document",
          questions := [] } ∧
    handler true (fun _ _ => 0) (fun _ _ => none) (some "Q")
      = { status := 500, error := some "Failed to extract questions",
          questions := [] } := by
  have h1 := pipeline_failure_reporting (fun _ _ => 0) [none, some [], none]
    (fun _ _ => some []) "Q" (by decide) (by decide)
  have h2 := pipeline_failure_reporting (fun _ _ => 0)
    [none, some [sampleQ1], none] (fun _ _ => none) "Q" (by decide) (by decide)
  have ha := h1.1 (by decide)
  have hb := h2.2.1 (by decide)
  refine ⟨ha.1, ha.2.2, hb.1, ?_, h1.2.2.1 rfl, h2.2.2.2.1 rfl⟩
  rw [hb.2.2]
  decide

/-- C9: the handler returns the 400 "no text" rejection — with an error
message, an empty questions array, and an output independent of the API key
and of the extraction capability (so before any segmentation decision or
external call) — exactly for the requests whose `text` is missing, empty, or
whitespace-only, and for no non-empty trimmed input. -/
theorem empty_text_rejected (text : Option String) :
    (text = none ∨ jsTrim (text.getD "") = "") ↔
      (∀ (hasKey : Bool) (jf : Nat → Nat → Nat)
        (oracle : Nat → List Char → Option (List RawQuestion)),
        handler hasKey jf oracle text
          = { status := 400, error := some "No text provided",
              questions := [] }) := by
  constructor
  · intro h hasKey jf oracle
    cases text with
    | none => rfl
    | some s =>
      have htr : jsTrim s = "" := by
        rcases h with h1 | h1
        · exact absurd h1 (by simp)
        · simpa using h1
      have hcond : ((!(jsTruthyText (some s)))
          || ((jsTrim ((some s : Option String).getD "")).length == 0))
          = true := by
        show ((!(jsTruthyText (some s))) || ((jsTrim s).length == 0)) = true
        rw [htr]
        simp
      unfold handler
      rw [if_pos hcond]
  · intro h
    by_contra hneg
    push_neg at hneg
    rcases hneg with ⟨h1, h2⟩
    cases text with
    | none => exact h1 rfl
    | some s =>
      have hs : jsTrim s ≠ "" := by simpa using h2
      have hsne : s ≠ "" := by
        intro hz
        subst hz
        exact hs rfl
      have ht : jsTruthyText (some s) = true := by
        simp [jsTruthyText, hsne]
      have hl : (jsTrim s).length ≠ 0 := by
        intro hz
        apply hs
        have hd : (jsTrim s).data = [] := List.length_eq_zero.mp hz
        exact String.ext hd
      have hb : ((jsTrim s).length == 0) = false := beq_eq_false_iff_ne.mpr hl
      have hcond : ((!(jsTruthyText (some s)))
          || ((jsTrim ((some s : Option String).getD "")).length == 0))
          = false := by
        show ((!(jsTruthyText (some s))) || ((jsTrim s).length == 0)) = false
        rw [ht, hb]
        rfl
      have happ := h false (fun _ _ => 0) (fun _ _ => none)
      unfold handler at happ
      rw [if_neg (by rw [hcond]; simp)] at happ
      rw [if_pos (by rfl)] at happ
      have := congrArg QuizResponse.status happ
      simp at this

/-- Witness for C9: a whitespace-only `text` is rejected with 400 before any
external activity. -/
theorem empty_text_rejected_witness :
    handler true (fun _ _ => 0) (fun _ _ => some [sampleQ1]) (some "   ")
      = { status := 400, error := some "No text provided", questions := [] } :=
  ((empty_text_rejected (some "   ")).mp (Or.inr (by decide))) true
    (fun _ _ => 0) (fun _ _ => some [sampleQ1])

/-! ### The uppercase branch is unreachable on ASCII input -/

theorem char_le_iff (a b : Char) : a ≤ b ↔ a.toNat ≤ b.toNat := by
  rw [Char.le_def, UInt32.le_def, BitVec.le_def]
  exact Iff.rfl

theorem char_lt_iff (a b : Char) : a < b ↔ a.toNat < b.toNat := by
  rw [Char.lt_def, UInt32.lt_def, BitVec.lt_def]
  exact Iff.rfl

theorem char_eq_iff (a b : Char) : a = b ↔ a.toNat = b.toNat := by
  constructor
  · intro h
    rw [h]
  · intro h
    exact Char.ext (UInt32.toNat.inj h)

theorem char_toNat_ofNat {n : Nat} (h : n < 0xd800) :
    (Char.ofNat n).toNat = n := by
  unfold Char.ofNat
  rw [dif_pos (Or.inl h)]
  rfl

theorem toLower_toNat (c : Char) :
    (Char.toLower c).toNat
      = if c.toNat ≥ 65 ∧ c.toNat ≤ 90 then c.toNat + 32 else c.toNat := by
  unfold Char.toLower
  by_cases h : c.toNat ≥ 65 ∧ c.toNat ≤ 90
  · rw [if_pos h, if_pos h, char_toNat_ofNat (by omega)]
  · rw [if_neg h, if_neg h]

theorem toUpper_toNat (c : Char) :
    (Char.toUpper c).toNat
      = if c.toNat ≥ 97 ∧ c.toNat ≤ 122 then c.toNat - 32 else c.toNat := by
  unfold Char.toUpper
  by_cases h : c.toNat ≥ 97 ∧ c.toNat ≤ 122
  · rw [if_pos h, if_pos h, char_toNat_ofNat (by omega)]
  · rw [if_neg h, if_neg h]

theorem lexLe_single_cons (d b : Char) (bs : List Char) :
    lexLe [d] (b :: bs) = true ↔ d ≤ b := by
  show (if d < b then true else if d = b then lexLe [] bs else false) = true
    ↔ d ≤ b
  by_cases h1 : d < b
  · simp [h1, le_of_lt h1]
  · rw [if_neg h1]
    by_cases h2 : d = b
    · subst h2
      rw [if_pos rfl]
      exact ⟨fun _ => le_refl d, fun _ => rfl⟩
    · rw [if_neg h2]
      simp only [Bool.false_eq_true, false_iff]
      intro hle
      exact h1 (lt_of_le_of_ne hle h2)

theorem lexLe_cons_single (b : Char) (bs : List Char) (d : Char) :
    lexLe (b :: bs) [d] = true ↔ (b < d ∨ (b = d ∧ bs = [])) := by
  show (if b < d then true else if b = d then lexLe bs [] else false) = true
    ↔ (b < d ∨ (b = d ∧ bs = []))
  by_cases h1 : b < d
  · simp [h1]
  · rw [if_neg h1]
    by_cases h2 : b = d
    · subst h2
      rw [if_pos rfl]
      cases bs with
      | nil => exact ⟨fun _ => Or.inr ⟨rfl, rfl⟩, fun _ => rfl⟩
      | cons x xs =>
        show false = true ↔ _
        simp [h1]
    · rw [if_neg h2]
      simp [h1, h2]

theorem upper_guard_false (a : String)
    (hch : ∀ ch ∈ a.data, ch.toNat < 128 ∧ ¬(65 ≤ ch.toNat ∧ ch.toNat ≤ 90))
    (h1 : (jsLe "a" a && jsLe a "z") = false) :
    (jsLe "A" (jsToUpper a) && jsLe (jsToUpper a) "Z") = false := by
  cases hd : a.data with
  | nil =>
    have hud : (jsToUpper a).data = [] := by
      show a.data.map Char.toUpper = []
      rw [hd]
      rfl
    show (lexLe "A".data (jsToUpper a).data
      && lexLe (jsToUpper a).data "Z".data) = false
    rw [hud]
    rfl
  | cons b bs =>
    by_contra hcon
    have htrue : (jsLe "A" (jsToUpper a) && jsLe (jsToUpper a) "Z") = true := by
      cases hbool : (jsLe "A" (jsToUpper a) && jsLe (jsToUpper a) "Z") with
      | false => exact absurd hbool hcon
      | true => rfl
    rw [Bool.and_eq_true] at htrue
    rcases htrue with ⟨hA, hZ⟩
    have hupd : (jsToUpper a).data
        = Char.toUpper b :: bs.map Char.toUpper := by
      show a.data.map Char.toUpper = _
      rw [hd]
      rfl
    have hA2 : lexLe ['A'] (Char.toUpper b :: bs.map Char.toUpper) = true := by
      rw [← hupd]
      exact hA
    have hZ2 : lexLe (Char.toUpper b :: bs.map Char.toUpper) ['Z'] = true := by
      rw [← hupd]
      exact hZ
    have hAb : (65 : Nat) ≤ (Char.toUpper b).toNat :=
      (char_le_iff 'A' (Char.toUpper b)).mp ((lexLe_single_cons 'A' _ _).mp hA2)
    have hZb := (lexLe_cons_single (Char.toUpper b) (bs.map Char.toUpper) 'Z').mp
      hZ2
    have hb := hch b (by rw [hd]; exact List.mem_cons_self b bs)
    have hlow1 : lexLe ['a'] (b :: bs) = false ∨ lexLe (b :: bs) ['z'] = false := by
      have := Bool.and_eq_false_iff.mp (by
        show (lexLe "a".data a.data && lexLe a.data "z".data) = false
        exact h1)
      rw [hd] at this
      exact this
    have hub := toUpper_toNat b
    rcases hZb with hlt | ⟨heqz, hmap⟩
    · have hltn : (Char.toUpper b).toNat < 90 := (char_lt_iff _ 'Z').mp hlt
      rcases hlow1 with hx | hy
      · have hnb : ¬('a' ≤ b) := by
          intro hle
          rw [(lexLe_single_cons 'a' b bs).mpr hle] at hx
          cases hx
        have hnbn : ¬(97 ≤ b.toNat) := fun hh => hnb ((char_le_iff 'a' b).mpr hh)
        rw [if_neg (by omega)] at hub
        omega
      · have hny : ¬(b < 'z' ∨ (b = 'z' ∧ bs = [])) := by
          intro hor
          rw [(lexLe_cons_single b bs 'z').mpr hor] at hy
          cases hy
        push_neg at hny
        have hge : (122 : Nat) ≤ b.toNat := (char_le_iff 'z' b).mp hny.1
        by_cases hg : b.toNat ≥ 97 ∧ b.toNat ≤ 122
        · rw [if_pos hg] at hub
          omega
        · rw [if_neg hg] at hub
          omega
    · have heqn : (Char.toUpper b).toNat = 90 := (char_eq_iff _ 'Z').mp heqz
      have hbs : bs = [] := List.map_eq_nil_iff.mp hmap
      subst hbs
      rcases hlow1 with hx | hy
      · have hnb : ¬('a' ≤ b) := by
          intro hle
          rw [(lexLe_single_cons 'a' b []).mpr hle] at hx
          cases hx
        have hnbn : ¬(97 ≤ b.toNat) := fun hh => hnb ((char_le_iff 'a' b).mpr hh)
        rw [if_neg (by omega)] at hub
        omega
      · have hny : ¬(b < 'z' ∨ (b = 'z' ∧ ([] : List Char) = [])) := by
          intro hor
          rw [(lexLe_cons_single b [] 'z').mpr hor] at hy
          cases hy
        push_neg at hny
        have hz1 : (122 : Nat) ≤ b.toNat := (char_le_iff 'z' b).mp hny.1
        have hz2 : b ≠ 'z' := fun hh => (hny.2 hh) rfl
        have hz2n : b.toNat ≠ 122 := fun hh => hz2 ((char_eq_iff b 'z').mpr hh)
        by_cases hg : b.toNat ≥ 97 ∧ b.toNat ≤ 122
        · omega
        · rw [if_neg hg] at hub
          omega

theorem trimmed_lower_chars (s : String)
    (hascii : ∀ ch ∈ s.data, ch.toNat < 128) :
    ∀ ch ∈ (jsTrim (jsToLower s)).data,
      ch.toNat < 128 ∧ ¬(65 ≤ ch.toNat ∧ ch.toNat ≤ 90) := by
  intro ch hch
  have h1 : ch ∈ (jsToLower s).data := by
    have h2 : (jsTrim (jsToLower s)).data
        = (((jsToLower s).data.dropWhile jsWhitespace).reverse.dropWhile
            jsWhitespace).reverse := rfl
    rw [h2, List.mem_reverse] at hch
    have h3 : ch ∈ ((jsToLower s).data.dropWhile jsWhitespace).reverse :=
      (List.dropWhile_sublist _).subset hch
    rw [List.mem_reverse] at h3
    exact (List.dropWhile_sublist _).subset h3
  have h4 : ch ∈ s.data.map Char.toLower := h1
  rcases List.mem_map.mp h4 with ⟨c0, hc0, rfl⟩
  have ha := hascii c0 hc0
  rw [toLower_toNat c0]
  by_cases hg : c0.toNat ≥ 65 ∧ c0.toNat ≤ 90
  · rw [if_pos hg]
    omega
  · rw [if_neg hg]
    omega

theorem shortAnswerIndex_eq_noUpper (s : String)
    (hascii : ∀ ch ∈ s.data, ch.toNat < 128) (n : Nat) :
    shortAnswerIndex s n = shortAnswerIndexNoUpper s n := by
  by_cases h1 : (jsLe "a" (jsTrim (jsToLower s))
      && jsLe (jsTrim (jsToLower s)) "z") = true
  · simp only [shortAnswerIndex, shortAnswerIndexNoUpper]
    rw [if_pos h1, if_pos h1]
  · have h1f : (jsLe "a" (jsTrim (jsToLower s))
        && jsLe (jsTrim (jsToLower s)) "z") = false := by
      cases hb : (jsLe "a" (jsTrim (jsToLower s))
          && jsLe (jsTrim (jsToLower s)) "z") with
      | false => rfl
      | true => exact absurd hb h1
    have hup := upper_guard_false (jsTrim (jsToLower s))
      (trimmed_lower_chars s hascii) h1f
    simp only [shortAnswerIndex, shortAnswerIndexNoUpper]
    rw [if_neg h1, if_neg h1, if_neg (by rw [hup]; simp)]

theorem resolveByText_eq_noUpper (options : List String) (v : Bool)
    (ans : Option String)
    (hs : ∀ s, ans = some s →
      shortAnswerIndex s options.length = shortAnswerIndexNoUpper s options.length) :
    resolveByText options v ans = resolveByTextNoUpper options v ans := by
  cases ans with
  | none => rfl
  | some s =>
    simp only [resolveByText, resolveByTextNoUpper, hs s rfl]

/-- C10: for records whose answer text is ASCII, deleting the
uppercase-letter matching branch does not change the resolution result —
the answer is lower-cased before the letter chain runs, so the lowercase
branch subsumes every case the uppercase branch could accept. -/
theorem upper_branch_redundant (q : RawQuestion)
    (hascii : ∀ s, q.correctAnswer = some s → ∀ ch ∈ s.data, ch.toNat < 128) :
    resolveAnswer q = resolveAnswerNoUpper q := by
  have hbt : resolveByText q.options q.answerMarkedInDocument q.correctAnswer
      = resolveByTextNoUpper q.options q.answerMarkedInDocument
        q.correctAnswer :=
    resolveByText_eq_noUpper q.options q.answerMarkedInDocument q.correctAnswer
      (fun s hsome =>
        shortAnswerIndex_eq_noUpper s (hascii s hsome) q.options.length)
  cases hidx : q.correctAnswerIndex with
  | none =>
    simp only [resolveAnswer, resolveAnswerNoUpper, hidx]
    exact hbt
  | some i =>
    simp only [resolveAnswer, resolveAnswerNoUpper, hidx]
    by_cases hcond : 0 ≤ i ∧ i < (q.options.length : Int)
    · rw [if_pos hcond, if_pos hcond]
    · rw [if_neg hcond, if_neg hcond]
      exact hbt

/-- Witness for C10 at a concrete record with an ASCII answer text. -/
theorem upper_branch_redundant_witness :
    resolveAnswer sampleQ3 = resolveAnswerNoUpper sampleQ3 :=
  upper_branch_redundant sampleQ3 (fun s hsome => by
    have h1 : (some "b" : Option String) = some s := hsome
    have h2 : s = "b" := (Option.some_inj.mp h1).symm
    subst h2
    decide)

end PDFQuizer
